import Mathlib

/-!
Verification of the roslibrust TCPROS core (publisher.rs, subscriber.rs) and
the codegen utilities (utils.rs) against the natural-language design document.

The Rust code is shallowly embedded: pure control flow becomes Lean functions,
the outcome of each I/O action (accept, read, write, dial, XMLRPC exchange)
becomes an explicit input so that every value-level decision of the source is
reproduced exactly.  The ConnectionHeader codec lives in tcpros.rs, which is
not part of the sources under verification; it is modelled from the design
document where needed, as marked on the individual definitions.
-/

set_option autoImplicit false

namespace RoslibRust

/-! ## ConnectionHeader (data model, spec §3) -/

/-- The TCPROS handshake record, mirroring struct ConnectionHeader as it is
constructed in publisher.rs (Publication::new) and subscriber.rs
(Subscription::new): caller id, latching flag, message definition text,
md5 digest, topic, topic type and the tcp_nodelay flag. -/
structure ConnectionHeader where
  caller_id : String
  latching : Bool
  msg_definition : String
  md5sum : String
  topic : String
  topic_type : String
  tcp_nodelay : Bool
  deriving DecidableEq, Repr

/-- Boolean fields are carried as single-character numeric strings on the
wire. -/
def boolField (b : Bool) : String := if b then "1" else "0"

/-- Modelled from the spec: ConnectionHeader::to_bytes lives in tcpros.rs,
which is not among the sources; only its two call sites are.  The spec's
codec operation is encode(header, include_definition_and_latching), and the
spec states that the subscriber side (the call to_bytes(true) in
establish_publisher_connection) encodes without the message_definition and
latching fields while the publisher response (the call to_bytes(false) in the
Publication acceptor) encodes with them.  The flag therefore selects the
request encoding (true: bound for a publisher, definition and latching
omitted) versus the response encoding (false: bound for a subscriber, all
fields present).  The length-prefixed key=value byte framing of spec §6 is
abstracted to the list of key/value entries, which is what the claims
quantify over. -/
def ConnectionHeader.to_bytes (h : ConnectionHeader) (to_publisher : Bool) :
    List (String × String) :=
  [("caller_id", h.caller_id),
   ("topic", h.topic),
   ("topic_type", h.topic_type),
   ("md5sum", h.md5sum),
   ("tcp_nodelay", boolField h.tcp_nodelay)]
  ++ (if to_publisher then []
      else [("latching", boolField h.latching),
            ("message_definition", h.msg_definition)])

/-! ## Publication acceptor (publisher.rs, Publication::new, listener task)

One accepted connection is handled by the body of the accept loop:
read the incoming header bytes, parse them with ConnectionHeader::from_bytes,
compare md5sums, and on a match serialize the response header with
to_bytes(false), write it back (with expect, i.e. panic on failure) and push
the stream onto subscriber_streams.  The parse outcome and the success of the
response write are environment inputs of the embedding. -/

/-- Result of handling one accepted connection in the acceptor loop. -/
structure AcceptOutcome where
  /-- The response header entries whose write was issued on the stream,
  if any. -/
  response_written : Option (List (String × String))
  /-- Whether the stream was pushed onto the subscriber_streams peer set. -/
  stream_added : Bool
  /-- Whether the task hit an expect and panicked. -/
  panicked : Bool
  deriving DecidableEq, Repr

/-- Embedding of the per-connection body of the acceptor loop in
Publication::new.  decoded is the result of ConnectionHeader::from_bytes on
the bytes read from the new stream; write_ok tells whether the write of the
response header on the stream succeeds.  On a parse failure the code only
logs; on an md5 mismatch it does nothing; on a match it writes the response
header (panicking via expect if the write fails) and pushes the stream. -/
def accept_connection (resp : ConnectionHeader)
    (decoded : Except Unit ConnectionHeader) (write_ok : Bool) : AcceptOutcome :=
  match decoded with
  | .error _ => ⟨none, false, false⟩
  | .ok ch =>
    if ch.md5sum == resp.md5sum then
      if write_ok then
        ⟨some (resp.to_bytes false), true, false⟩
      else
        ⟨some (resp.to_bytes false), false, true⟩
    else
      ⟨none, false, false⟩

/-- Concrete header used for closed evaluations: spec §8 scenario 1. -/
def chatterHeader : ConnectionHeader :=
  { caller_id := "/test_node"
    latching := false
    msg_definition := "string data"
    md5sum := "992ce8a1687cec8cc3e73d85c3bbb9e4"
    topic := "/chatter"
    topic_type := "std_msgs/String"
    tcp_nodelay := false }

/-- Header differing from chatterHeader only in the md5sum, spec §8
scenario 2. -/
def mismatchHeader : ConnectionHeader :=
  { chatterHeader with md5sum := "deadbeefdeadbeefdeadbeefdeadbeef" }

/-- C1: in the Publication acceptor, for a connection whose bytes decode to a
ConnectionHeader and whose response write succeeds, the stream is inserted
into the peer set if and only if the decoded md5sum equals the Publication's,
and a response header is written back if and only if the md5sums are equal;
on a mismatch, regardless of the environment, no response is written and the
stream is never added (so the fan-out task, which only writes to members of
the peer set, never sends data on it). -/
theorem accept_connection_md5_gate (resp ch : ConnectionHeader) :
    ((accept_connection resp (.ok ch) true).stream_added = true ↔
      ch.md5sum = resp.md5sum) ∧
    ((accept_connection resp (.ok ch) true).response_written.isSome = true ↔
      ch.md5sum = resp.md5sum) ∧
    (ch.md5sum ≠ resp.md5sum → ∀ write_ok : Bool,
      accept_connection resp (.ok ch) write_ok = ⟨none, false, false⟩) := by
  refine ⟨?_, ?_, ?_⟩
  · unfold accept_connection
    by_cases h : ch.md5sum = resp.md5sum <;> simp [h]
  · unfold accept_connection
    by_cases h : ch.md5sum = resp.md5sum <;> simp [h]
  · intro h write_ok
    unfold accept_connection
    simp [h]

/-- Closed instance of accept_connection_md5_gate: the matching chatter
header is admitted, and the mismatching one is dropped without a response. -/
theorem accept_connection_md5_gate_witness :
    ((accept_connection chatterHeader (.ok chatterHeader) true).stream_added = true ↔
      chatterHeader.md5sum = chatterHeader.md5sum) ∧
    (mismatchHeader.md5sum ≠ chatterHeader.md5sum →
      accept_connection chatterHeader (.ok mismatchHeader) true = ⟨none, false, false⟩) :=
  ⟨(accept_connection_md5_gate chatterHeader chatterHeader).1,
   fun h => (accept_connection_md5_gate chatterHeader mismatchHeader).2.2 h true⟩

/-- C2: the subscriber side encodes its ConnectionHeader without the
message_definition and latching fields (to_bytes(true) at subscriber.rs,
establish_publisher_connection), and the publisher's response header is
encoded with those fields present (to_bytes(false) at publisher.rs,
Publication acceptor). -/
theorem handshake_field_selection (h : ConnectionHeader) :
    (h.to_bytes true).map Prod.fst =
      ["caller_id", "topic", "topic_type", "md5sum", "tcp_nodelay"] ∧
    ((h.to_bytes true).map Prod.fst).contains "message_definition" = false ∧
    ((h.to_bytes true).map Prod.fst).contains "latching" = false ∧
    ((h.to_bytes false).map Prod.fst).contains "message_definition" = true ∧
    ((h.to_bytes false).map Prod.fst).contains "latching" = true :=
  ⟨rfl, rfl, rfl, rfl, rfl⟩

/-- C3 failing input, evaluated: a subscriber connects, sends a header whose
md5sum matches, and resets the connection so that the response write fails;
the acceptor task then panics through the expect on the write, refuting the
claim that the panic branch is unreachable. -/
theorem accept_connection_panics_on_write_failure :
    accept_connection chatterHeader (.ok chatterHeader) false =
      ⟨some (chatterHeader.to_bytes false), false, true⟩ := by
  decide

/-! ## Subscription reader loop (subscriber.rs, add_publisher_source, spawned task)

After a successful connection the task repeatedly calls read_buf on the
stream.  An Ok(0) read breaks out of the loop; an Ok(n) read with n > 0
publishes the chunk on the broadcast sender and breaks only if the send
fails; an Err read falls into the else branch, which logs and then falls
through to the next iteration of the loop.  Each read outcome is an
environment input of the embedding; payload bytes are Nat. -/

/-- Outcome of one read_buf call on the publisher stream: Ok with the chunk
of bytes appended (empty chunk is the 0-byte EOF read), or Err. -/
inductive ReadEvent where
  | ok (chunk : List Nat)
  | err
  deriving DecidableEq, Repr

/-- Embedding of the read loop of the spawned task in add_publisher_source.
send_ok tells whether broadcast sends succeed (the channel still has
receivers); the returned list is the sequence of payloads handed to the
broadcast sender.  The loop is driven by the finite list of read outcomes
the environment supplies; an exhausted list means the stream never becomes
ready again and the loop makes no further progress. -/
def subscription_read_loop (send_ok : Bool) : List ReadEvent → List (List Nat)
  | [] => []
  | .ok chunk :: rest =>
    if chunk.length = 0 then []
    else if send_ok then chunk :: subscription_read_loop send_ok rest
    else []
  | .err :: rest => subscription_read_loop send_ok rest

/-- C4 failing input, evaluated: a failed read does not terminate the reader
loop.  After a read error the loop proceeds to the next read and even
publishes its bytes (the else branch of the read only logs; it contains no
break), while a zero-byte read does break.  The claim that any read error
terminates the task is refuted by the first equation. -/
theorem subscription_read_loop_continues_after_error :
    subscription_read_loop true [.err, .ok [1]] = [[1]] ∧
    subscription_read_loop true [.err, .err, .ok [2], .ok [3]] = [[2], [3]] ∧
    subscription_read_loop true [.ok [], .ok [1]] = [] := by
  decide

/-! ## Subscription publisher bookkeeping (subscriber.rs, add_publisher_source)

The call first checks known_publishers for the URI; if absent it spawns a
task which, on a successful establish_publisher_connection, pushes the URI
onto known_publishers and enters the read loop.  The embedding treats one
call together with the connection outcome of its spawned task as an atomic
step (the sequential executions); reader_tasks records the URIs whose task
reached the read loop. -/

/-- The per-topic Subscription bookkeeping state: the known publisher URI
list and the URIs that own a live reader task (a spawned task that passed
establish_publisher_connection and entered the read loop). -/
structure SubscriptionState where
  known_publishers : List String
  reader_tasks : List String
  deriving DecidableEq, Repr

/-- Embedding of Subscription::add_publisher_source: the returned Bool is
the Ok result (the function always returns Ok(()); connection failures stay
inside the spawned task).  connect_ok tells whether the spawned task's
establish_publisher_connection succeeds; on failure the task exits without
registering anything. -/
def add_publisher_source (st : SubscriptionState) (connect_ok : Bool)
    (publisher_uri : String) : SubscriptionState × Bool :=
  let is_new_connection :=
    (st.known_publishers.find? (fun publisher => publisher == publisher_uri)).isNone
  if is_new_connection then
    if connect_ok then
      ({ known_publishers := st.known_publishers ++ [publisher_uri],
         reader_tasks := st.reader_tasks ++ [publisher_uri] }, true)
    else
      (st, true)
  else
    (st, true)

/-- Fold a sequence of add_publisher_source calls (each with its connection
outcome) over a starting state. -/
def run_add_publisher_calls (st : SubscriptionState) :
    List (Bool × String) → SubscriptionState
  | [] => st
  | (ok, uri) :: rest =>
    run_add_publisher_calls (add_publisher_source st ok uri).1 rest

/-- Invariant tying reader tasks to the known-URI list: every URI owns at
most one reader task, and a URI outside known_publishers owns none. -/
def ReaderInv (st : SubscriptionState) : Prop :=
  ∀ u : String, st.reader_tasks.count u ≤ 1 ∧
    (u ∉ st.known_publishers → st.reader_tasks.count u = 0)

theorem add_publisher_source_of_known (st : SubscriptionState) (ok : Bool)
    (uri : String) (h : uri ∈ st.known_publishers) :
    add_publisher_source st ok uri = (st, true) := by
  unfold add_publisher_source
  have hfind : (st.known_publishers.find? (fun publisher => publisher == uri)).isSome := by
    rw [List.find?_isSome]
    exact ⟨uri, h, by simp⟩
  have hne := Option.isSome_iff_ne_none.mp hfind
  simp [hne]

theorem readerInv_step (st : SubscriptionState) (ok : Bool) (uri : String)
    (h : ReaderInv st) : ReaderInv (add_publisher_source st ok uri).1 := by
  by_cases hmem : uri ∈ st.known_publishers
  · rw [add_publisher_source_of_known st ok uri hmem]
    exact h
  · unfold add_publisher_source
    have hfind : (st.known_publishers.find? (fun publisher => publisher == uri)) = none := by
      rw [List.find?_eq_none]
      intro x hx
      simp only [beq_iff_eq]
      intro hxe
      exact hmem (hxe ▸ hx)
    cases ok with
    | false => simpa [hfind] using h
    | true =>
      simp only [hfind, Option.isNone_none, if_true]
      intro u
      by_cases hu : u = uri
      · subst hu
        have h0 : st.reader_tasks.count u = 0 := (h u).2 hmem
        constructor
        · simp [List.count_append, h0]
        · intro hnot
          exact absurd (by simp : u ∈ st.known_publishers ++ [u]) hnot
      · have hcnt : (st.reader_tasks ++ [uri]).count u = st.reader_tasks.count u := by
          simp [List.count_append, List.count_singleton]
          intro hc
          exact absurd hc.symm hu
        constructor
        · rw [hcnt]; exact (h u).1
        · intro hnot
          rw [hcnt]
          exact (h u).2 (fun hin => hnot (List.mem_append_left _ hin))

theorem readerInv_run (st : SubscriptionState) (calls : List (Bool × String))
    (h : ReaderInv st) : ReaderInv (run_add_publisher_calls st calls) := by
  induction calls generalizing st with
  | nil => exact h
  | cons c rest ih =>
    exact ih _ (readerInv_step st c.1 c.2 h)

/-- C5: add_publisher_source is idempotent per URI in the sequential
executions: once a URI is in the known-publisher list, any later call with
that URI returns Ok and changes nothing (no task is spawned, no new work);
consequently, starting from a fresh Subscription, any sequence of calls
leaves at most one reader task per URI. -/
theorem add_publisher_source_idempotent :
    (∀ (st : SubscriptionState) (ok : Bool) (uri : String),
      uri ∈ st.known_publishers → add_publisher_source st ok uri = (st, true)) ∧
    (∀ (calls : List (Bool × String)) (uri : String),
      (run_add_publisher_calls ⟨[], []⟩ calls).reader_tasks.count uri ≤ 1) := by
  constructor
  · exact add_publisher_source_of_known
  · intro calls uri
    have hinit : ReaderInv ⟨[], []⟩ := by
      intro u
      simp [List.count_nil]
    exact ((readerInv_run _ calls hinit) uri).1

/-- Closed instance of add_publisher_source_idempotent: a repeated call with
a known URI is a no-op that returns Ok, and five calls for the same URI
leave a single reader task. -/
theorem add_publisher_source_idempotent_witness :
    add_publisher_source ⟨["http://p:11311"], ["http://p:11311"]⟩ true "http://p:11311" =
      (⟨["http://p:11311"], ["http://p:11311"]⟩, true) ∧
    (run_add_publisher_calls ⟨[], []⟩
      [(true, "http://p:11311"), (true, "http://p:11311"), (true, "http://p:11311"),
       (true, "http://p:11311"), (true, "http://p:11311")]).reader_tasks.count
        "http://p:11311" ≤ 1 :=
  ⟨add_publisher_source_idempotent.1 _ true _ (by decide),
   add_publisher_source_idempotent.2 _ _⟩

/-! ## Topic request and connection establishment (subscriber.rs,
send_topic_request and establish_publisher_connection)

send_topic_request POSTs a requestTopic XMLRPC call and inspects the
response; each stage of the exchange is an environment input.  Error kinds
follow the std::io::ErrorKind values the source selects; dial, write and
read failures whose kind comes from the operating system are abstracted to
one kind. -/

/-- Error kinds produced along the subscriber connection path. -/
inductive IoErrorKind where
  /-- the HTTP POST itself failed -/
  | connectionAborted
  /-- non-2xx HTTP status -/
  | connectionRefused
  /-- missing body, XMLRPC parse failure, header parse failure or md5sum
  mismatch -/
  | invalidData
  /-- a protocol other than TCPROS was advertised -/
  | unsupported
  /-- an OS-reported dial, write or read error propagated by the question
  mark operator -/
  | peerIo
  deriving DecidableEq, Repr

/-- Outcome of the XMLRPC exchange with the publisher, as seen by
send_topic_request: transport failure, HTTP failure, unreadable body,
unparsable XMLRPC, or a parsed (code, description, (protocol, host, port))
triple. -/
inductive XmlRpcExchange where
  | transportErr
  | httpFailure
  | noBody
  | parseFailure
  | parsed (code : Int) (descr : String) (protocol : String)
      (hostname : String) (port : Nat)
  deriving DecidableEq, Repr

/-- Embedding of send_topic_request: maps each failure stage to the
ErrorKind the source picks, and requires the advertised protocol to be
TCPROS, in which case the host:port endpoint string is returned. -/
def send_topic_request (exchange : XmlRpcExchange) : Except IoErrorKind String :=
  match exchange with
  | .transportErr => .error .connectionAborted
  | .httpFailure => .error .connectionRefused
  | .noBody => .error .invalidData
  | .parseFailure => .error .invalidData
  | .parsed _ _ protocol hostname port =>
    if protocol == "TCPROS" then .ok (hostname ++ ":" ++ toString port)
    else .error .unsupported

/-- Outcome of reading and parsing the publisher's response header. -/
inductive ResponseRead where
  | readErr
  | unparsable
  | header (h : ConnectionHeader)
  deriving DecidableEq, Repr

/-- Environment of one establish_publisher_connection call: the XMLRPC
exchange outcome, whether the TCP dial succeeds, whether writing the
request header succeeds, and the result of reading the response header. -/
structure EstablishEnv where
  exchange : XmlRpcExchange
  dial_ok : Bool
  write_ok : Bool
  response : ResponseRead
  deriving DecidableEq, Repr

/-- Observable outcome of establish_publisher_connection. -/
structure EstablishOutcome where
  /-- Ok when a validated stream is returned to the reader loop. -/
  result : Except IoErrorKind Unit
  /-- whether TcpStream::connect was attempted -/
  dialed : Bool
  /-- the header entries handed to write_all, when reached -/
  sent_header : Option (List (String × String))
  deriving Repr

/-- Embedding of establish_publisher_connection: request the topic endpoint
(an error propagates before any dial), dial it, write the connection header
serialized with to_bytes(true), read and parse the response header and
reject on md5sum mismatch with InvalidData. -/
def establish_publisher_connection (conn_header : ConnectionHeader)
    (env : EstablishEnv) : EstablishOutcome :=
  match send_topic_request env.exchange with
  | .error e => { result := .error e, dialed := false, sent_header := none }
  | .ok _ =>
    if env.dial_ok then
      if env.write_ok then
        match env.response with
        | .readErr =>
          { result := .error .peerIo, dialed := true,
            sent_header := some (conn_header.to_bytes true) }
        | .unparsable =>
          { result := .error .invalidData, dialed := true,
            sent_header := some (conn_header.to_bytes true) }
        | .header responded_header =>
          if conn_header.md5sum == responded_header.md5sum then
            { result := .ok (), dialed := true,
              sent_header := some (conn_header.to_bytes true) }
          else
            { result := .error .invalidData, dialed := true,
              sent_header := some (conn_header.to_bytes true) }
      else
        { result := .error .peerIo, dialed := true,
          sent_header := some (conn_header.to_bytes true) }
    else
      { result := .error .peerIo, dialed := true, sent_header := none }

/-- The whole spawned task of add_publisher_source: on a successful
establishment the read loop runs and its payloads reach the broadcast
sender; on a failed establishment the task exits and sends nothing. -/
def subscription_reader_task (conn_header : ConnectionHeader)
    (env : EstablishEnv) (send_ok : Bool) (reads : List ReadEvent) :
    List (List Nat) :=
  match (establish_publisher_connection conn_header env).result with
  | .ok _ => subscription_read_loop send_ok reads
  | .error _ => []

/-- C7: when the requestTopic response parses but advertises a protocol
other than TCPROS, establish_publisher_connection fails with Unsupported
before any TCP dial is attempted and no handshake bytes are sent, and the
reader task hands nothing to the broadcast sender. -/
theorem unsupported_protocol_no_dial (conn_header : ConnectionHeader)
    (env : EstablishEnv) (code : Int) (descr protocol hostname : String)
    (port : Nat) (send_ok : Bool) (reads : List ReadEvent)
    (hx : env.exchange = .parsed code descr protocol hostname port)
    (hp : protocol ≠ "TCPROS") :
    establish_publisher_connection conn_header env =
      { result := .error .unsupported, dialed := false, sent_header := none } ∧
    subscription_reader_task conn_header env send_ok reads = [] := by
  have hreq : send_topic_request env.exchange = .error .unsupported := by
    rw [hx]
    simp [send_topic_request, hp]
  constructor
  · unfold establish_publisher_connection
    rw [hreq]
  · unfold subscription_reader_task establish_publisher_connection
    rw [hreq]

/-- Closed instance of unsupported_protocol_no_dial at the environment of
spec §8 scenario 6: the stub answers (1, "ok", ("UDPROS", "h", 7400)). -/
theorem unsupported_protocol_no_dial_witness :
    establish_publisher_connection chatterHeader
      ⟨.parsed 1 "ok" "UDPROS" "h" 7400, true, true, .header chatterHeader⟩ =
      { result := .error .unsupported, dialed := false, sent_header := none } ∧
    subscription_reader_task chatterHeader
      ⟨.parsed 1 "ok" "UDPROS" "h" 7400, true, true, .header chatterHeader⟩
      true [.ok [1, 2, 3]] = [] :=
  unsupported_protocol_no_dial chatterHeader _ 1 "ok" "UDPROS" "h" 7400 true
    [.ok [1, 2, 3]] rfl (by decide)

/-! ## Publication fan-out pass (publisher.rs, Publication::new, publish task)

One received payload is written to every stream of the peer set under the
write lock.  Each peer is carried together with the outcome of writing this
payload to it (true: the write fails).  Failing indices are collected by
forward enumeration and then removed with Vec::remove, each index corrected
by the number of elements already removed. -/

/-- Indices of the peers whose write failed, collected by forward
enumeration starting at index i (the for loop over streams.iter_mut().
enumerate() that pushes stream_idx on error). -/
def markedIndices {α : Type} : List (α × Bool) → Nat → List Nat
  | [], _ => []
  | p :: rest, i =>
    if p.2 then i :: markedIndices rest (i + 1) else markedIndices rest (i + 1)

/-- The removal phase: streams_to_remove.into_iter().enumerate().for_each
removing stream_idx - removed_cnt at each step; removed_cnt counts the
entries already processed. -/
def removeMarked {α : Type} : List (α × Bool) → List Nat → Nat → List (α × Bool)
  | streams, [], _ => streams
  | streams, idx :: rest, removed_cnt =>
    removeMarked (streams.eraseIdx (idx - removed_cnt)) rest (removed_cnt + 1)

/-- One full fan-out pass over the peer set: mark the failing writes by
forward enumeration, then remove the marked indices with offset
correction. -/
def fanout_pass {α : Type} (streams : List (α × Bool)) : List (α × Bool) :=
  removeMarked streams (markedIndices streams 0) 0

theorem eraseIdx_at_append {α : Type} (s : List α) (p : α) (rest : List α) :
    (s ++ p :: rest).eraseIdx s.length = s ++ rest := by
  induction s with
  | nil => rfl
  | cons a s ih =>
    simp only [List.cons_append, List.length_cons, List.eraseIdx_cons_succ, ih]

theorem markedIndices_le {α : Type} (l : List (α × Bool)) :
    ∀ (i x : Nat), x ∈ markedIndices l i → i ≤ x := by
  induction l with
  | nil => intro i x hx; simp [markedIndices] at hx
  | cons p rest ih =>
    intro i x hx
    by_cases hp : p.2 <;> simp only [markedIndices, hp, if_true, if_false] at hx
    · rcases List.mem_cons.mp hx with rfl | hx
      · exact Nat.le_refl x
      · exact Nat.le_of_succ_le (ih (i + 1) x hx)
    · exact Nat.le_of_succ_le (ih (i + 1) x hx)

theorem markedIndices_chain {α : Type} (l : List (α × Bool)) :
    ∀ i : Nat, List.Chain' (· < ·) (markedIndices l i) := by
  induction l with
  | nil => intro i; simp [markedIndices]
  | cons p rest ih =>
    intro i
    by_cases hp : p.2
    · simp only [markedIndices, hp, if_true]
      rw [List.chain'_cons']
      refine ⟨?_, ih (i + 1)⟩
      intro y hy
      have hle := markedIndices_le rest (i + 1) y (List.mem_of_mem_head? hy)
      omega
    · simpa [markedIndices, hp] using ih (i + 1)

theorem removeMarked_markedIndices {α : Type} (l : List (α × Bool)) :
    ∀ (s : List (α × Bool)) (k : Nat),
      removeMarked (s ++ l) (markedIndices l (s.length + k)) k =
        s ++ l.filter (fun p => !p.2) := by
  induction l with
  | nil => intro s k; simp [markedIndices, removeMarked]
  | cons p rest ih =>
    intro s k
    by_cases hp : p.2
    · simp only [markedIndices, hp, if_true]
      unfold removeMarked
      have h1 : s.length + k - k = s.length := by omega
      rw [h1, eraseIdx_at_append]
      have h2 : s.length + k + 1 = s.length + (k + 1) := by omega
      rw [h2, ih s (k + 1)]
      simp [List.filter_cons, hp]
    · have hm : markedIndices (p :: rest) (s.length + k) =
          markedIndices rest (s.length + k + 1) := by
        simp [markedIndices, hp]
      have h2 : s.length + k + 1 = (s ++ [p]).length + k := by
        simp only [List.length_append, List.length_singleton]
        omega
      have h3 : s ++ p :: rest = (s ++ [p]) ++ rest := by simp
      rw [hm, h2, h3, ih (s ++ [p]) k]
      simp [List.filter_cons, hp]

/-- C6: after one fan-out pass exactly the peers whose write failed are
removed: the marked indices are collected in strictly ascending order by
forward enumeration, and removing them with the offset correction by the
number already removed leaves precisely the peers whose write succeeded,
in their original relative order. -/
theorem fanout_pass_removes_failed {α : Type} (streams : List (α × Bool)) :
    fanout_pass streams = streams.filter (fun p => !p.2) ∧
    List.Chain' (· < ·) (markedIndices streams 0) := by
  constructor
  · have h := removeMarked_markedIndices streams [] 0
    simpa [fanout_pass] using h
  · exact markedIndices_chain streams 0

/-! ## Bounded outbound queue (Publisher::publish / Publication::new)

The submit path hands a serialized payload to mpsc::Sender::send on the
channel created with capacity queue_size. -/

/-- Modelled from the spec: the tokio bounded mpsc channel is not among the
sources.  The spec's bounded-queue contract: fixed capacity queue_size; a
send on a full queue suspends the producer instead of dropping; a send
fails with Closed exactly when the receiving half (owned by the fan-out
task, dropped when the Publication is destroyed) is gone. -/
structure BoundedQueue where
  buffer : List (List Nat)
  capacity : Nat
  /-- receiver dropped, i.e. the Publication was destroyed -/
  closed : Bool
  deriving DecidableEq, Repr

/-- Outcome of one submit attempt: the payload was enqueued, the producer
suspended (payload retained, to be retried when space frees), or the send
failed with the Closed error. -/
inductive SubmitOutcome where
  | enqueued
  | suspended
  | closedErr
  deriving DecidableEq, Repr

/-- Modelled from the spec: one submit attempt against the bounded queue. -/
def submit (q : BoundedQueue) (payload : List Nat) : SubmitOutcome × BoundedQueue :=
  if q.closed then (.closedErr, q)
  else if q.buffer.length < q.capacity then
    (.enqueued, { q with buffer := q.buffer ++ [payload] })
  else (.suspended, q)

/-- One receive step of the fan-out task: pop the front payload. -/
def recv_step (q : BoundedQueue) : BoundedQueue :=
  { q with buffer := q.buffer.tail }

/-- k receive steps of the fan-out task. -/
def recvN (q : BoundedQueue) : Nat → BoundedQueue
  | 0 => q
  | k + 1 => recvN (recv_step q) k

theorem recvN_closed (k : Nat) : ∀ q : BoundedQueue, (recvN q k).closed = q.closed := by
  induction k with
  | zero => intro q; rfl
  | succ k ih => intro q; exact ih (recv_step q)

theorem recvN_capacity (k : Nat) : ∀ q : BoundedQueue, (recvN q k).capacity = q.capacity := by
  induction k with
  | zero => intro q; rfl
  | succ k ih => intro q; exact ih (recv_step q)

theorem recvN_length (k : Nat) :
    ∀ q : BoundedQueue, (recvN q k).buffer.length = q.buffer.length - k := by
  induction k with
  | zero => intro q; simp [recvN]
  | succ k ih =>
    intro q
    rw [recvN, ih (recv_step q)]
    simp [recv_step, List.length_tail]
    omega

/-- C8: a submit returns the Closed error exactly when the Publication has
been destroyed (the receiving half is gone); a submit on a full live queue
suspends, leaving the queue unchanged and dropping nothing; and on a live
queue the payload is enqueued after finitely many receive steps of the
fan-out task (draining the backlog frees space). -/
theorem submit_closed_iff_destroyed (q : BoundedQueue) (payload : List Nat) :
    ((submit q payload).1 = .closedErr ↔ q.closed = true) ∧
    (q.closed = false → q.capacity ≤ q.buffer.length →
      submit q payload = (.suspended, q)) ∧
    (q.closed = false → 1 ≤ q.capacity →
      (submit (recvN q q.buffer.length) payload).1 = .enqueued) := by
  refine ⟨?_, ?_, ?_⟩
  · unfold submit
    by_cases hc : q.closed
    · simp [hc]
    · by_cases hl : q.buffer.length < q.capacity <;> simp [hc, hl]
  · intro hc hl
    unfold submit
    rw [hc]
    have : ¬ q.buffer.length < q.capacity := by omega
    simp [this]
  · intro hc hcap
    unfold submit
    rw [recvN_closed, hc, recvN_capacity, recvN_length]
    have h0 : 0 < q.capacity := by omega
    simp [h0]

/-- Closed instance of submit_closed_iff_destroyed: a full live queue of
capacity one suspends without dropping, and after one receive step the
payload is enqueued. -/
theorem submit_closed_iff_destroyed_witness :
    submit ⟨[[1]], 1, false⟩ [2] = (.suspended, ⟨[[1]], 1, false⟩) ∧
    (submit (recvN ⟨[[1]], 1, false⟩ 1) [2]).1 = .enqueued :=
  ⟨(submit_closed_iff_destroyed ⟨[[1]], 1, false⟩ [2]).2.1 rfl (by decide),
   (submit_closed_iff_destroyed ⟨[[1]], 1, false⟩ [2]).2.2 rfl (by decide)⟩

/-! ## Package search paths (utils.rs, get_search_paths) -/

/-- Wrapper mirroring std::path::PathBuf; PathBuf::from keeps the string. -/
structure PathBuf where
  path : String
  deriving DecidableEq, Repr

/-- Embedding of get_search_paths: the value of the ROS_PACKAGE_PATH
environment variable is an input (none when unset); the compile-time cfg
choice between unix and windows is the Bool input.  When the variable is
set its value is split on the separator and each piece converted with
PathBuf::from; otherwise the empty list is returned. -/
def get_search_paths (unixOs : Bool) (ros_package_path : Option String) :
    List PathBuf :=
  match ros_package_path with
  | some paths =>
    let separator := if unixOs then ":" else ";"
    (paths.splitOn separator).map PathBuf.mk
  | none => []

theorem map_path_map_mk (l : List String) :
    ((l.map PathBuf.mk).map PathBuf.path) = l := by
  induction l with
  | nil => rfl
  | cons a l ih => simp [ih]

/-- C9: with ROS_PACKAGE_PATH set, get_search_paths returns exactly the
value split on the colon (unix) or semicolon (windows) separator, converted
to paths in order (projecting the paths back yields the split list
itself); with the variable unset it returns the empty list. -/
theorem get_search_paths_spec (v : String) (b : Bool) :
    get_search_paths true (some v) = (v.splitOn ":").map PathBuf.mk ∧
    get_search_paths false (some v) = (v.splitOn ";").map PathBuf.mk ∧
    (get_search_paths true (some v)).map PathBuf.path = v.splitOn ":" ∧
    (get_search_paths false (some v)).map PathBuf.path = v.splitOn ";" ∧
    get_search_paths b none = [] := by
  refine ⟨rfl, rfl, ?_, ?_, rfl⟩
  · exact map_path_map_mk (v.splitOn ":")
  · exact map_path_map_mk (v.splitOn ";")

/-! ## Package deduplication (utils.rs, deduplicate_packages)

The function folds the input packages into a HashMap<String, Package>: it
looks a package up under its bare name, and inserts under the
package_name_fmt key (name, an underscore, and a version tag).  The
HashMap is modelled as an association list with replace-on-insert;
into_values becomes the list of values (the claims are order
insensitive). -/

/-- ROS distribution major version, mirroring enum RosVersion. -/
inductive RosVersion where
  | ROS1
  | ROS2
  deriving DecidableEq, Repr

/-- Mirrors struct Package: name, filesystem path, optional version. -/
structure Package where
  name : String
  path : String
  version : Option RosVersion
  deriving DecidableEq, Repr

/-- Rust's PartialEq for Package compares name and version only; the path
is ignored. -/
def Package.rust_eq (a b : Package) : Bool :=
  a.name == b.name && a.version == b.version

/-- The version tag used by package_name_fmt's format string. -/
def version_suffix : Option RosVersion → String
  | some .ROS1 => "1"
  | some .ROS2 => "2"
  | none => "unknown"

/-- Embedding of the nested fn package_name_fmt: "{name}_{tag}". -/
def package_name_fmt (pkg : Package) : String :=
  pkg.name ++ "_" ++ version_suffix pkg.version

theorem string_data_append (a b : String) : (a ++ b).data = a.data ++ b.data := by
  cases a; cases b; rfl

theorem string_ext {a b : String} (h : a.data = b.data) : a = b := by
  cases a; cases b; exact congrArg String.mk h

theorem version_suffix_length_pos (v : Option RosVersion) :
    1 ≤ (version_suffix v).length := by
  cases v with
  | none => decide
  | some r => cases r <;> decide

/-- The formatted key is strictly longer than the bare name, so the lookup
under the bare name can never find an entry equal (in the Rust sense) to
the probing package. -/
theorem package_name_fmt_ne_name (p : Package) : package_name_fmt p ≠ p.name := by
  intro h
  have hl := congrArg String.length h
  rw [package_name_fmt, String.length_append, String.length_append,
    show ("_" : String).length = 1 from rfl] at hl
  have h2 := version_suffix_length_pos p.version
  omega

theorem package_name_fmt_data (p : Package) :
    (package_name_fmt p).data =
      p.name.data ++ '_' :: (version_suffix p.version).data := by
  rw [package_name_fmt, string_data_append, string_data_append]
  simp [List.append_assoc]

theorem package_name_fmt_rev (p : Package) :
    (package_name_fmt p).data.reverse =
      (version_suffix p.version).data.reverse ++ '_' :: p.name.data.reverse := by
  rw [package_name_fmt_data]
  simp [List.reverse_append, List.reverse_cons, List.append_assoc]

theorem underscore_not_mem_suffix (v : Option RosVersion) :
    '_' ∉ (version_suffix v).data.reverse := by
  cases v with
  | none => decide
  | some r => cases r <;> decide

theorem version_suffix_inj {v w : Option RosVersion}
    (h : version_suffix v = version_suffix w) : v = w := by
  cases v with
  | none =>
    cases w with
    | none => rfl
    | some b => cases b <;> exact absurd h (by decide)
  | some a =>
    cases w with
    | none => cases a <;> exact absurd h (by decide)
    | some b => cases a <;> cases b <;> first | rfl | exact absurd h (by decide)

/-- Splitting at a separator absent from the left parts is unambiguous. -/
theorem sep_append_inj {α : Type} (sep : α) :
    ∀ (r₁ r₂ m₁ m₂ : List α), sep ∉ r₁ → sep ∉ r₂ →
      r₁ ++ sep :: m₁ = r₂ ++ sep :: m₂ → r₁ = r₂ ∧ m₁ = m₂ := by
  intro r₁
  induction r₁ with
  | nil =>
    intro r₂ m₁ m₂ h1 h2 heq
    cases r₂ with
    | nil => simpa using heq
    | cons d r₂ =>
      exfalso
      simp only [List.nil_append, List.cons_append, List.cons.injEq] at heq
      exact h2 (heq.1 ▸ List.mem_cons_self d r₂)
  | cons c r₁ ih =>
    intro r₂ m₁ m₂ h1 h2 heq
    cases r₂ with
    | nil =>
      exfalso
      simp only [List.cons_append, List.nil_append, List.cons.injEq] at heq
      exact h1 (heq.1 ▸ List.mem_cons_self c r₁)
    | cons d r₂ =>
      simp only [List.cons_append, List.cons.injEq] at heq
      obtain ⟨hcd, heq'⟩ := heq
      obtain ⟨hr, hm⟩ := ih r₂ m₁ m₂
        (fun hx => h1 (List.mem_cons_of_mem c hx))
        (fun hx => h2 (List.mem_cons_of_mem d hx)) heq'
      exact ⟨by rw [hcd, hr], hm⟩

/-- The key formatter is injective: equal keys force equal names and equal
versions (the three version tags end in pairwise distinct characters and
contain no underscore). -/
theorem package_name_fmt_inj {p q : Package}
    (h : package_name_fmt p = package_name_fmt q) :
    p.name = q.name ∧ p.version = q.version := by
  have hrev : (version_suffix p.version).data.reverse ++ '_' :: p.name.data.reverse
      = (version_suffix q.version).data.reverse ++ '_' :: q.name.data.reverse := by
    rw [← package_name_fmt_rev, ← package_name_fmt_rev, h]
  obtain ⟨hsuf, hname⟩ := sep_append_inj '_' _ _ _ _
    (underscore_not_mem_suffix p.version) (underscore_not_mem_suffix q.version) hrev
  constructor
  · have hd := congrArg List.reverse hname
    simp only [List.reverse_reverse] at hd
    exact string_ext hd
  · have hd := congrArg List.reverse hsuf
    simp only [List.reverse_reverse] at hd
    exact version_suffix_inj (string_ext hd)

/-- Association-list model of the HashMap: lookup by key (first binding). -/
def map_get (m : List (String × Package)) (k : String) : Option Package :=
  (m.find? (fun e => e.1 == k)).map (fun e => e.2)

/-- Association-list model of the HashMap: insert replaces an existing
binding of the key in place, otherwise appends. -/
def map_insert (m : List (String × Package)) (k : String) (v : Package) :
    List (String × Package) :=
  match m with
  | [] => [(k, v)]
  | e :: rest => if e.1 == k then (k, v) :: rest else e :: map_insert rest k v

/-- One iteration of the for loop of deduplicate_packages: look the package
up under its bare name; on a hit compare with Rust equality (name and
version) and keep the first on equality, otherwise insert under the
formatted name_version key. -/
def dedup_step (m : List (String × Package)) (package : Package) :
    List (String × Package) :=
  match map_get m package.name with
  | some duplicate =>
    if Package.rust_eq package duplicate then m
    else map_insert m (package_name_fmt package) package
  | none => map_insert m (package_name_fmt package) package

/-- Embedding of deduplicate_packages: fold the inputs into the map, then
take the values (into_values; the claims are insensitive to the iteration
order of the HashMap). -/
def deduplicate_packages (packages : List Package) : List Package :=
  (packages.foldl dedup_step []).map (fun e => e.2)

/-- The last input package carrying the given name and version. -/
def last_match (packages : List Package) (n : String) (v : Option RosVersion) :
    Option Package :=
  packages.foldl
    (fun acc p => if p.name = n ∧ p.version = v then some p else acc) none

/-- The last input package whose formatted key is k. -/
def last_with_key (packages : List Package) (k : String) : Option Package :=
  packages.foldl
    (fun acc p => if package_name_fmt p = k then some p else acc) none

/-- Every binding of the map stores its value under the value's formatted
key. -/
def KeyInv (m : List (String × Package)) : Prop :=
  ∀ e ∈ m, e.1 = package_name_fmt e.2

/-- The map's keys are pairwise distinct. -/
def KeysNodup (m : List (String × Package)) : Prop :=
  (m.map Prod.fst).Nodup

theorem mem_map_insert (m : List (String × Package)) (k : String) (v : Package)
    (e : String × Package) (h : e ∈ map_insert m k v) : e = (k, v) ∨ e ∈ m := by
  induction m with
  | nil => simpa [map_insert] using h
  | cons f rest ih =>
    by_cases hf : f.1 == k
    · simp only [map_insert, hf, if_true] at h
      rcases List.mem_cons.mp h with rfl | h
      · exact Or.inl rfl
      · exact Or.inr (List.mem_cons_of_mem f h)
    · simp only [map_insert, hf, if_false] at h
      rcases List.mem_cons.mp h with rfl | h
      · exact Or.inr (List.mem_cons_self e rest)
      · rcases ih h with h | h
        · exact Or.inl h
        · exact Or.inr (List.mem_cons_of_mem f h)

theorem keyInv_insert (m : List (String × Package)) (v : Package)
    (h : KeyInv m) : KeyInv (map_insert m (package_name_fmt v) v) := by
  intro e he
  rcases mem_map_insert m (package_name_fmt v) v e he with rfl | he
  · rfl
  · exact h e he

theorem keysNodup_insert (m : List (String × Package)) (k : String) (v : Package)
    (h : KeysNodup m) : KeysNodup (map_insert m k v) := by
  induction m with
  | nil => simp [map_insert, KeysNodup]
  | cons f rest ih =>
    have hrest : KeysNodup rest := (List.nodup_cons.mp h).2
    have hf1 : f.1 ∉ rest.map Prod.fst := (List.nodup_cons.mp h).1
    by_cases hf : f.1 == k
    · have hk : f.1 = k := beq_iff_eq.mp hf
      simp only [map_insert, hf, if_true]
      refine List.nodup_cons.mpr ⟨?_, hrest⟩
      simpa [← hk] using hf1
    · simp only [map_insert, hf, if_false]
      refine List.nodup_cons.mpr ⟨?_, ih hrest⟩
      intro hmem
      rcases List.mem_map.mp hmem with ⟨e, he, heq⟩
      rcases mem_map_insert rest k v e he with rfl | he
      · exact hf (beq_iff_eq.mpr heq.symm)
      · exact hf1 (List.mem_map.mpr ⟨e, he, heq⟩)

theorem map_get_insert (m : List (String × Package)) (k : String) (v : Package)
    (k2 : String) :
    map_get (map_insert m k v) k2 = if k2 = k then some v else map_get m k2 := by
  induction m with
  | nil =>
    by_cases h : k2 = k
    · simp [map_insert, map_get, h]
    · have : (k == k2) = false := by
        simp only [beq_eq_false_iff_ne]
        exact fun he => h he.symm
      simp [map_insert, map_get, this, h]
  | cons f rest ih =>
    by_cases hf : f.1 == k
    · have hk : f.1 = k := beq_iff_eq.mp hf
      simp only [map_insert, hf, if_true]
      by_cases h2 : k2 = k
      · simp [map_get, h2]
      · have hkk2 : (k == k2) = false := by
          simp only [beq_eq_false_iff_ne]
          exact fun he => h2 he.symm
        have hfk2 : (f.1 == k2) = false := by
          rw [hk]; exact hkk2
        simp [map_get, hkk2, hfk2, h2, List.find?]
    · simp only [map_insert, hf, if_false]
      by_cases hfk2 : f.1 == k2
      · have h2k : k2 ≠ k := by
          intro he
          exact hf (by rw [he] at hfk2; exact hfk2)
        simp [map_get, List.find?, hfk2, h2k]
      · simp only [map_get, List.find?, hfk2]
        rw [show (List.find? (fun e => e.1 == k2) (map_insert rest k v)).map
            (fun e => e.2) = map_get (map_insert rest k v) k2 from rfl]
        rw [show (List.find? (fun e => e.1 == k2) rest).map (fun e => e.2) =
            map_get rest k2 from rfl]
        exact ih

theorem map_get_of_mem (m : List (String × Package)) (e : String × Package)
    (hnd : KeysNodup m) (h : e ∈ m) : map_get m e.1 = some e.2 := by
  induction m with
  | nil => exact absurd h (List.not_mem_nil e)
  | cons f rest ih =>
    rcases List.mem_cons.mp h with rfl | h
    · simp [map_get, List.find?]
    · have hf1 : f.1 ∉ rest.map Prod.fst := (List.nodup_cons.mp hnd).1
      have hne : (f.1 == e.1) = false := by
        simp only [beq_eq_false_iff_ne]
        intro heq
        exact hf1 (heq ▸ List.mem_map.mpr ⟨e, h, rfl⟩)
      simp only [map_get, List.find?, hne]
      exact ih (List.nodup_cons.mp hnd).2 h

theorem dedup_step_eq_insert (m : List (String × Package)) (p : Package)
    (hinv : KeyInv m) :
    dedup_step m p = map_insert m (package_name_fmt p) p := by
  unfold dedup_step
  cases hget : map_get m p.name with
  | none => rfl
  | some duplicate =>
    have hfind := hget
    unfold map_get at hfind
    rcases Option.map_eq_some'.mp hfind with ⟨e, he, hev⟩
    have hmem : e ∈ m := List.mem_of_find?_eq_some he
    have hkeyb := List.find?_some he
    have hkey : e.1 = p.name := beq_iff_eq.mp hkeyb
    have hfmt : package_name_fmt duplicate = p.name := by
      rw [← hev, ← hinv e hmem, hkey]
    have hre : Package.rust_eq p duplicate = false := by
      by_contra hcon
      have htrue : Package.rust_eq p duplicate = true := by
        revert hcon
        cases Package.rust_eq p duplicate <;> simp
      have hparts := htrue
      unfold Package.rust_eq at hparts
      rw [Bool.and_eq_true, beq_iff_eq, beq_iff_eq] at hparts
      obtain ⟨hn, hv⟩ := hparts
      have : package_name_fmt duplicate = duplicate.name := by
        rw [hfmt, hn]
      exact package_name_fmt_ne_name duplicate this
    simp [hre]

theorem last_with_key_fold (k : String) :
    ∀ (ps : List Package) (acc : Option Package),
      ps.foldl (fun a p => if package_name_fmt p = k then some p else a) acc =
        (last_with_key ps k).elim acc some := by
  intro ps
  induction ps with
  | nil => intro acc; simp [last_with_key]
  | cons p rest ih =>
    intro acc
    have hl : last_with_key (p :: rest) k =
        (last_with_key rest k).elim
          (if package_name_fmt p = k then some p else none) some := by
      show List.foldl _ (if package_name_fmt p = k then some p else none) rest = _
      exact ih _
    rw [List.foldl_cons, ih, hl]
    cases hc : last_with_key rest k with
    | some q => rfl
    | none =>
      by_cases hp : package_name_fmt p = k <;> simp [hp]

theorem last_with_key_mem (k : String) :
    ∀ (ps : List Package) (p : Package), last_with_key ps k = some p →
      p ∈ ps ∧ package_name_fmt p = k := by
  intro ps
  induction ps with
  | nil => intro p h; simp [last_with_key] at h
  | cons q rest ih =>
    intro p h
    have hl : last_with_key (q :: rest) k =
        (last_with_key rest k).elim
          (if package_name_fmt q = k then some q else none) some := by
      show List.foldl _ _ rest = _
      exact last_with_key_fold k rest _
    rw [hl] at h
    cases hc : last_with_key rest k with
    | some r =>
      rw [hc] at h
      simp only [Option.elim_some, Option.some.injEq] at h
      obtain ⟨hm, hf⟩ := ih r hc
      exact ⟨h ▸ List.mem_cons_of_mem q hm, h ▸ hf⟩
    | none =>
      rw [hc] at h
      simp only [Option.elim_none] at h
      by_cases hq : package_name_fmt q = k
      · rw [if_pos hq] at h
        have : q = p := Option.some.inj h
        exact ⟨this ▸ List.mem_cons_self q rest, this ▸ hq⟩
      · rw [if_neg hq] at h
        exact absurd h (by simp)

theorem last_with_key_isSome (k : String) :
    ∀ ps : List Package, (∃ x ∈ ps, package_name_fmt x = k) →
      (last_with_key ps k).isSome = true := by
  intro ps
  induction ps with
  | nil =>
    rintro ⟨x, hx, _⟩
    exact absurd hx (List.not_mem_nil x)
  | cons q rest ih =>
    rintro ⟨x, hx, hfx⟩
    have hl : last_with_key (q :: rest) k =
        (last_with_key rest k).elim
          (if package_name_fmt q = k then some q else none) some := by
      show List.foldl _ _ rest = _
      exact last_with_key_fold k rest _
    rw [hl]
    cases hc : last_with_key rest k with
    | some r => rfl
    | none =>
      rcases List.mem_cons.mp hx with rfl | hxr
      · simp [hfx]
      · have hs := ih ⟨x, hxr, hfx⟩
        rw [hc] at hs
        exact absurd hs (by simp)

theorem map_get_fold :
    ∀ (ps : List Package) (m : List (String × Package)),
      KeyInv m → KeysNodup m → ∀ k,
      map_get (ps.foldl dedup_step m) k =
        (last_with_key ps k).elim (map_get m k) some := by
  intro ps
  induction ps with
  | nil => intro m h1 h2 k; simp [last_with_key]
  | cons p rest ih =>
    intro m h1 h2 k
    rw [List.foldl_cons, dedup_step_eq_insert m p h1]
    rw [ih _ (keyInv_insert m p h1) (keysNodup_insert m _ p h2) k, map_get_insert]
    have hl : last_with_key (p :: rest) k =
        (last_with_key rest k).elim
          (if package_name_fmt p = k then some p else none) some := by
      show List.foldl _ _ rest = _
      exact last_with_key_fold k rest _
    rw [hl]
    cases last_with_key rest k with
    | some q => rfl
    | none =>
      by_cases hp : package_name_fmt p = k
      · subst hp
        simp
      · have hkp : ¬ k = package_name_fmt p := fun he => hp he.symm
        simp [hp, hkp]

theorem last_match_eq_last_with_key (q : Package) (ps : List Package) :
    last_match ps q.name q.version = last_with_key ps (package_name_fmt q) := by
  have h : ∀ acc : Option Package,
      ps.foldl (fun acc p =>
        if p.name = q.name ∧ p.version = q.version then some p else acc) acc =
      ps.foldl (fun acc p =>
        if package_name_fmt p = package_name_fmt q then some p else acc) acc := by
    induction ps with
    | nil => intro acc; rfl
    | cons p rest ih =>
      intro acc
      rw [List.foldl_cons, List.foldl_cons]
      have hiff : (p.name = q.name ∧ p.version = q.version) ↔
          package_name_fmt p = package_name_fmt q := by
        constructor
        · rintro ⟨hn, hv⟩
          rw [package_name_fmt, package_name_fmt, hn, hv]
        · exact package_name_fmt_inj
      rw [if_congr hiff rfl rfl]
      exact ih _
  exact h none

/-- C10: deduplicate_packages keeps at most one package per (name, version)
pair, and the package kept for each pair present in the input is exactly
the last occurrence of that pair in input order (conversely every output
package is the last occurrence of its own pair).  The lookup guarding the
keep-first branch probes the bare name while every insertion is keyed by
the strictly longer name_version string, so the keep-first branch never
fires and each input package overwrites the previous binding of its key. -/
theorem deduplicate_packages_spec (packages : List Package) :
    (deduplicate_packages packages).Pairwise
      (fun a b => ¬(a.name = b.name ∧ a.version = b.version)) ∧
    (∀ q ∈ packages, ∃ p, last_match packages q.name q.version = some p ∧
      p ∈ deduplicate_packages packages) ∧
    (∀ p ∈ deduplicate_packages packages,
      last_match packages p.name p.version = some p) := by
  have hinv0 : KeyInv ([] : List (String × Package)) := by
    intro e he
    exact absurd he (List.not_mem_nil e)
  have hnd0 : KeysNodup ([] : List (String × Package)) := by
    simp [KeysNodup]
  have hfold : ∀ (ps : List Package) (m : List (String × Package)),
      KeyInv m → KeysNodup m →
      KeyInv (ps.foldl dedup_step m) ∧ KeysNodup (ps.foldl dedup_step m) := by
    intro ps
    induction ps with
    | nil => intro m h1 h2; exact ⟨h1, h2⟩
    | cons p rest ih =>
      intro m h1 h2
      rw [List.foldl_cons, dedup_step_eq_insert m p h1]
      exact ih _ (keyInv_insert m p h1) (keysNodup_insert m _ p h2)
  obtain ⟨hKI, hKN⟩ := hfold packages [] hinv0 hnd0
  have hget : ∀ k,
      map_get (packages.foldl dedup_step []) k = last_with_key packages k := by
    intro k
    rw [map_get_fold packages [] hinv0 hnd0 k]
    cases last_with_key packages k with
    | some q => rfl
    | none => simp [map_get]
  refine ⟨?_, ?_, ?_⟩
  · have hpw : (packages.foldl dedup_step []).Pairwise
        (fun e1 e2 => e1.1 ≠ e2.1) := by
      have hKN' : ((packages.foldl dedup_step []).map Prod.fst).Pairwise (· ≠ ·) := hKN
      exact (List.pairwise_map.mp hKN')
    have hp2 : (packages.foldl dedup_step []).Pairwise
        (fun e1 e2 => ¬(e1.2.name = e2.2.name ∧ e1.2.version = e2.2.version)) := by
      refine List.Pairwise.imp_of_mem ?_ hpw
      intro a b ha hb hne hcon
      apply hne
      rw [hKI a ha, hKI b hb, package_name_fmt, package_name_fmt, hcon.1, hcon.2]
    show ((packages.foldl dedup_step []).map (fun e => e.2)).Pairwise _
    rw [List.pairwise_map]
    exact hp2
  · intro q hq
    have hsome : (last_with_key packages (package_name_fmt q)).isSome = true :=
      last_with_key_isSome _ packages ⟨q, hq, rfl⟩
    obtain ⟨p, hp⟩ := Option.isSome_iff_exists.mp hsome
    refine ⟨p, ?_, ?_⟩
    · rw [last_match_eq_last_with_key q packages, hp]
    · have hm : map_get (packages.foldl dedup_step []) (package_name_fmt q) =
          some p := by
        rw [hget]
        exact hp
      unfold map_get at hm
      rcases Option.map_eq_some'.mp hm with ⟨e, he, hev⟩
      have hmem : e ∈ packages.foldl dedup_step [] := List.mem_of_find?_eq_some he
      show p ∈ (packages.foldl dedup_step []).map (fun e => e.2)
      exact List.mem_map.mpr ⟨e, hmem, hev⟩
  · intro p hp
    have hp' : p ∈ (packages.foldl dedup_step []).map (fun e => e.2) := hp
    rcases List.mem_map.mp hp' with ⟨e, hmem, hev⟩
    have hkey : e.1 = package_name_fmt e.2 := hKI e hmem
    have hgete : map_get (packages.foldl dedup_step []) e.1 = some e.2 :=
      map_get_of_mem _ e hKN hmem
    rw [hget] at hgete
    rw [last_match_eq_last_with_key p packages]
    subst hev
    rw [← hkey]
    exact hgete

/-- The input of the verify_deduplicate_packages unit test in utils.rs. -/
def testPackages : List Package :=
  [{ name := "diagnostic_msgs", path := "/opt/ros/noetic/share/diagnostic_msgs",
     version := some .ROS1 },
   { name := "std_msgs", path := "/tmp/std_msgs", version := some .ROS1 },
   { name := "diagnostic_msgs",
     path := "/code/assets/ros1_common_interfaces/common_msgs/diagnostic_msgs",
     version := some .ROS1 },
   { name := "std_msgs", path := "/ros2/std_msgs", version := some .ROS2 }]

/-- Closed instance of deduplicate_packages_spec on the unit-test input: the
duplicated (diagnostic_msgs, ROS1) pair resolves to its last occurrence,
which survives deduplication. -/
theorem deduplicate_packages_spec_witness :
    ({ name := "diagnostic_msgs", path := "/opt/ros/noetic/share/diagnostic_msgs",
       version := some .ROS1 } : Package) ∈ testPackages ∧
    ∃ p, last_match testPackages "diagnostic_msgs" (some .ROS1) = some p ∧
      p ∈ deduplicate_packages testPackages :=
  ⟨by decide, (deduplicate_packages_spec testPackages).2.1
    { name := "diagnostic_msgs", path := "/opt/ros/noetic/share/diagnostic_msgs",
      version := some .ROS1 } (by decide)⟩

end RoslibRust
